import Mathlib

/-!
Verification of the gitstats repository core algorithms.

This file embeds, in Lean, the functions of the repository that the
claims speak about:

* `clusterFiles` / `clusterFilesRecursively` from
  `src/util/file_tree_clustering.ts` (the variant with the recursive
  sub-cluster probe; the lines that compute the unused `okSub` /
  `microSub` lists are dead code and have no observable effect, so they
  are omitted from the embedding),
* `parsePorcelain` from the commit-field capable source variant,
* `bucket` from `src/index.ts`.

JavaScript-specific behaviours are modelled explicitly: `String.split`,
`Array.sort` with the numeric comparators used in the source, `parseInt`,
the `for ... in` key iteration order of plain objects (array-index keys
in ascending numeric order first, then string keys in insertion order),
and the `x || fallback` idiom that also replaces the empty string.
The unbounded `while (changes)` loop of `clusterFiles` is embedded with
an explicit fuel that is proven sufficient (a strictly decreasing
measure), so every definition is executable and kernel-reducible.
-/

namespace GitStats

/-- One cell of a parsed data row: JS strings, numbers (integers in all
observed flows) or the NaN a failed `parseInt` produces. -/
inductive Cell where
  | str (s : String)
  | num (n : Int)
  | nan
deriving DecidableEq, Repr

/-- FileInfo of `file_tree_clustering.ts`: the path split on `/` plus the
original path string. -/
structure FileInfo where
  arr : List String
  str : String
deriving DecidableEq, Repr

/-- The internal working cluster of `file_tree_clustering.ts`.
A missing `isUnclusterable` field in a JS object literal reads back as
`undefined`, which is falsy, hence `false` here. -/
structure Cluster where
  path : List String
  files : List FileInfo
  isLeftovers : Bool
  isUnclusterable : Bool
deriving DecidableEq, Repr

/-- Output record `FileTreeCluster` of `clusterFiles`. -/
structure FileTreeCluster where
  path : String
  files : List String
  weight : Nat
  isLeftovers : Bool
deriving DecidableEq, Repr

/-- Character-level model of JS `"…".split("/")`. -/
def splitSlashChars : List Char → List (List Char)
  | [] => [[]]
  | c :: rest =>
    let r := splitSlashChars rest
    if c = '/' then [] :: r
    else
      match r with
      | h :: t => (c :: h) :: t
      | [] => [[c]]

/-- JS `s.split("/")` on strings. -/
def jsSplitSlash (s : String) : List String :=
  (splitSlashChars s.data).map (fun cs => String.mk cs)

/-- JS `arr.join("/")`, used for the output cluster path. -/
def joinSlash : List String → String
  | [] => ""
  | [s] => s
  | s :: rest => s ++ "/" ++ joinSlash rest

/-- Numeric value of a digit string (used for JS array-index keys). -/
def digitsToNat (l : List Char) : Nat :=
  l.foldl (fun a c => a * 10 + (c.toNat - 48)) 0

/-- Whether a string is a JS array-index property key: the canonical
decimal form of an integer `0 ≤ n < 2^32 - 1`. -/
def isArrayIndexStr (s : String) : Bool :=
  (!s.data.isEmpty) && s.data.all Char.isDigit &&
  (s == "0" || s.data.head? != some '0') && (digitsToNat s.data < 4294967295)

/-- Insert into a list sorted by numeric value of the key. -/
def insertByKey (x : String) : List String → List String
  | [] => [x]
  | y :: ys =>
    if digitsToNat x.data ≤ digitsToNat y.data then x :: y :: ys
    else y :: insertByKey x ys

/-- Sort array-index keys ascending by numeric value. -/
def sortByKey : List String → List String
  | [] => []
  | x :: xs => insertByKey x (sortByKey xs)

/-- The distinct values of a list in first-occurrence order: exactly the
insertion order of the keys of the JS `counts` object. -/
def insertionKeys (l : List String) : List String :=
  l.foldl (fun acc x => if acc.contains x then acc else acc ++ [x]) []

/-- The `for (const item in counts)` iteration order of a plain JS object:
array-index keys ascending first, then the rest in insertion order. -/
def forInKeys (l : List String) : List String :=
  sortByKey ((insertionKeys l).filter isArrayIndexStr)
    ++ (insertionKeys l).filter (fun k => !isArrayIndexStr k)

/-- Number of occurrences of `k` in `l` (the value `counts[k]` ends at). -/
def countOcc (l : List String) (k : String) : Nat :=
  (l.filter (fun x => x == k)).length

/-- `mostFrequent` of `file_tree_clustering.ts`: scan the keys in for-in
order, keeping the first key whose count strictly exceeds the running
maximum (which starts at `0`, with `arr[0]` as the initial item). -/
def mostFrequent (arr : List String) : String :=
  ((forInKeys arr).foldl
    (fun best k => if countOcc arr k > best.2 then (k, countOcc arr k) else best)
    (arr.headD "", 0)).1

/-- The fallback segment the source uses for `arr[l] || "$$$notfound$$$"`. -/
def notFoundSeg : String := "$$$notfound$$$"

/-- `it.arr[l] || "$$$notfound$$$"`: JS `||` replaces both `undefined`
(index out of range) and the empty string. -/
def mappedSeg (f : FileInfo) (l : Nat) : String :=
  match f.arr.get? l with
  | some s => if s == "" then notFoundSeg else s
  | none => notFoundSeg

/-- The most frequent next path segment of a cluster. -/
def mfOf (c : Cluster) : String :=
  mostFrequent (c.files.map (fun f => mappedSeg f c.path.length))

/-- The files whose next segment strictly equals the most frequent one
(`it.arr[l] === mf`; an out-of-range access is `undefined` and never
equal to a string). -/
def newOf (c : Cluster) : List FileInfo :=
  c.files.filter (fun f => f.arr.get? c.path.length == some (mfOf c))

/-- The remaining files of the split. -/
def remOf (c : Cluster) : List FileInfo :=
  c.files.filter (fun f => !(f.arr.get? c.path.length == some (mfOf c)))

/-- `{...originalCluster, isUnclusterable: true}`. -/
def setUncl (c : Cluster) : Cluster := ⟨c.path, c.files, c.isLeftovers, true⟩

/-- JS `Array.sort` with comparator `(a, b) => b.files.length - a.files.length`
on the two-element arrays the source sorts: stable descending order. -/
def sortPairDesc (l : List Cluster) : List Cluster :=
  match l with
  | [a, b] => if a.files.length < b.files.length then [b, a] else [a, b]
  | x => x

/-- The extracted cluster of a split (object literal without an
`isUnclusterable` field, hence `false`). -/
def extractedOf (c : Cluster) : Cluster := ⟨c.path ++ [mfOf c], newOf c, false, false⟩

/-- The leftover cluster of a split. -/
def leftoverOf (c : Cluster) : Cluster := ⟨c.path, remOf c, true, false⟩

/-- The body of `clusterFilesRecursively`, parameterised by the function
used for the recursive sub-cluster probe. -/
def stepBody (recFn : Cluster → Nat → Nat → Option (List Cluster))
    (c : Cluster) (clusterMaxSize clusterMinSize : Nat) : Option (List Cluster) :=
  if c.files.length ≤ clusterMaxSize then none
  else if c.isUnclusterable then none
  else if remOf c = [] then some [extractedOf c]
  else if (newOf c).length < clusterMinSize then some [setUncl c]
  else if (remOf c).length < clusterMinSize then
    match recFn (extractedOf c) clusterMaxSize 1 with
    | none => some [setUncl c]
    | some sub =>
      if sub.length = 1 then some [setUncl c]
      else some (sortPairDesc [extractedOf c, leftoverOf c])
  else some (sortPairDesc [extractedOf c, leftoverOf c])

/-- Fuelled unfolding of `clusterFilesRecursively`; the recursion always
shrinks the file list, so `files.length + 1` fuel is exact. -/
def stepFuel : Nat → Cluster → Nat → Nat → Option (List Cluster)
  | 0, _, _, _ => none
  | n + 1, c, mx, mn => stepBody (stepFuel n) c mx mn

/-- `clusterFilesRecursively` of `file_tree_clustering.ts`: `none` models
the JS `null` return ("no change"). -/
def clusterFilesRecursively (c : Cluster) (clusterMaxSize clusterMinSize : Nat) :
    Option (List Cluster) :=
  stepFuel (c.files.length + 1) c clusterMaxSize clusterMinSize

/-- One `clusterGroups.flatMap(...)` pass of the `while (changes)` loop,
together with the `changes` flag it computes. -/
def passOnce (mx mn : Nat) : List Cluster → List Cluster × Bool
  | [] => ([], false)
  | c :: cs =>
    let rest := passOnce mx mn cs
    match clusterFilesRecursively c mx mn with
    | none => (c :: rest.1, rest.2)
    | some r => (r ++ rest.1, true)

/-- Per-file potential used for the termination measure. -/
def depthTerm (l : Nat) (f : FileInfo) : Nat := (f.arr.length + 2) - l

/-- Potential of one cluster: zero exactly when the step returns `none`. -/
def clusterPhi (mx : Nat) (c : Cluster) : Nat :=
  if c.files.length ≤ mx then 0
  else if c.isUnclusterable then 0
  else 1 + 2 * ((c.files.map (depthTerm c.path.length)).sum)

/-- Potential of a whole cluster-group state. -/
def statePhi (mx : Nat) (cs : List Cluster) : Nat :=
  (cs.map (clusterPhi mx)).sum

/-- The `while (changes)` loop with explicit fuel. -/
def loopN (mx mn : Nat) : Nat → List Cluster → List Cluster
  | 0, cs => cs
  | fuel + 1, cs =>
    let p := passOnce mx mn cs
    if p.2 then loopN mx mn fuel p.1 else p.1

/-- Build a `FileInfo` from an input path string. -/
def mkFileInfo (s : String) : FileInfo := ⟨jsSplitSlash s, s⟩

/-- The initial cluster of `clusterFiles`. -/
def initialClusterOf (files : List String) : Cluster :=
  ⟨[], files.map mkFileInfo, false, false⟩

/-- The cluster groups at the fixed point of the `while (changes)` loop. -/
def clusterLoopResult (files : List String) (clusterMaxSize clusterMinSize : Nat) :
    List Cluster :=
  loopN clusterMaxSize clusterMinSize
    (statePhi clusterMaxSize [initialClusterOf files] + 1) [initialClusterOf files]

/-- The final mapping of `clusterFiles` to its output records. -/
def renderCluster (c : Cluster) : FileTreeCluster :=
  ⟨joinSlash c.path, c.files.map (fun f => f.str),
    (c.files.map (fun f => f.str)).length, c.isLeftovers⟩

/-- `clusterFiles` of `file_tree_clustering.ts`. -/
def clusterFiles (files : List String) (clusterMaxSize clusterMinSize : Nat) :
    List FileTreeCluster :=
  (clusterLoopResult files clusterMaxSize clusterMinSize).map renderCluster

/-- JS `line.startsWith(pre)` at character level. -/
def startsWithL (s pre : String) : Bool := s.data.take pre.data.length == pre.data

/-- JS `s.substring(0, n)` (for `n` at most the length). -/
def takeChars (s : String) (n : Nat) : String := String.mk (s.data.take n)

/-- JS `s.substring(n)`. -/
def dropChars (s : String) (n : Nat) : String := String.mk (s.data.drop n)

/-- Index of the first space in a character list, if any. -/
def idxOfSpace : List Char → Option Nat
  | [] => none
  | c :: rest => if c == ' ' then some 0 else (idxOfSpace rest).map Nat.succ

/-- JS `line.indexOf(' ')`, as an optional index. -/
def firstSpaceIdx (s : String) : Option Nat := idxOfSpace s.data

/-- A hex digit of the case-insensitive regex class `[0-9a-f]` under `/i`. -/
def isHexDigitCI (c : Char) : Bool :=
  c.isDigit || ('a' ≤ c && c ≤ 'f') || ('A' ≤ c && c ≤ 'F')

/-- The test of the anchored regex `/^\^?[0-9a-f]{40}$/i`. -/
def hashRegexTest (s : String) : Bool :=
  (s.data.length == 40 && s.data.all isHexDigitCI)
    || (s.data.length == 41 && s.data.head? == some '^'
          && (s.data.drop 1).all isHexDigitCI)

/-- The hunk-header test of `parsePorcelain`: the first space sits at
index 40 and the 40 characters before it pass the hash regex. -/
def headerRecognized (line : String) : Bool :=
  (firstSpaceIdx line == some 40) && hashRegexTest (takeChars line 40)

/-- JS `possibleHash.replace(/^\^/, '')`. -/
def stripCaret (s : String) : String :=
  if startsWithL s "^" then dropChars s 1 else s

/-- JS `value.replace(/^<|>$/g, '')` for the author field. -/
def stripAngles (s : String) : String :=
  let s1 := if startsWithL s "<" then dropChars s 1 else s
  if s1.data.getLast? == some '>' then String.mk s1.data.dropLast else s1

/-- Leading decimal digits of a character list, if any. -/
def digitsVal (l : List Char) : Option Nat :=
  match l.takeWhile Char.isDigit with
  | [] => none
  | ds => some (digitsToNat ds)

/-- JS `parseInt(s, 10)`: skip whitespace, optional sign, leading digits,
NaN when no digit follows. -/
def jsParseInt (s : String) : Cell :=
  let t := s.data.dropWhile (fun c => c == ' ' || c == '\t' || c == '\n' || c == '\r')
  match t with
  | '-' :: rest =>
    match digitsVal rest with
    | some n => Cell.num (-(n : Int))
    | none => Cell.nan
  | '+' :: rest =>
    match digitsVal rest with
    | some n => Cell.num (n : Int)
    | none => Cell.nan
  | u =>
    match digitsVal u with
    | some n => Cell.num (n : Int)
    | none => Cell.nan

/-- JS `fields.indexOf(name)`, as an optional position (the source only
ever compares the index with `>= 0` and indexes with it). -/
def fieldIdx : List String → String → Option Nat
  | [], _ => none
  | f :: rest, name =>
    if f == name then some 0 else (fieldIdx rest name).map Nat.succ

/-- `row[pos] = v` guarded by `pos >= 0`. -/
def setCell (row : List Cell) (pos : Option Nat) (v : Cell) : List Cell :=
  match pos with
  | some p => row.set p v
  | none => row

/-- The `emptyRow` of `parsePorcelain`: the field names themselves, with
the committer-time and boundary positions zeroed. -/
def mkEmptyRow (fields : List String) : List Cell :=
  setCell (setCell (fields.map Cell.str) (fieldIdx fields "committer-time") (Cell.num 0))
    (fieldIdx fields "boundary") (Cell.num 0)

/-- The line loop of the commit-capable `parsePorcelain`: a tab line emits
a snapshot of the working row without resetting it; a recognized hunk
header (only checked when the commit field is requested) starts a fresh
row carrying the hash; metadata lines update the working row in place. -/
def porcGo (uP tP bP cP : Option Nat) (emptyRow : List Cell) :
    List String → List Cell → List (List Cell)
  | [], _ => []
  | line :: rest, nextRow =>
    if startsWithL line "\t" then
      nextRow :: porcGo uP tP bP cP emptyRow rest nextRow
    else if cP.isSome && headerRecognized line then
      porcGo uP tP bP cP emptyRow rest
        (setCell emptyRow cP (Cell.str (stripCaret (takeChars line 40))))
    else if uP.isSome && startsWithL line "author " then
      porcGo uP tP bP cP emptyRow rest
        (setCell nextRow uP (Cell.str (stripAngles (dropChars line 7))))
    else if tP.isSome && startsWithL line "committer-time " then
      porcGo uP tP bP cP emptyRow rest
        (setCell nextRow tP (jsParseInt (dropChars line 15)))
    else if bP.isSome && startsWithL line "boundary" then
      porcGo uP tP bP cP emptyRow rest (setCell nextRow bP (Cell.num 1))
    else
      porcGo uP tP bP cP emptyRow rest nextRow

/-- `parsePorcelain(blameOutput, fields)` of the commit-capable variant
(the one taking the output already split into lines). -/
def parsePorcelain (blameOutput fields : List String) : List (List Cell) :=
  porcGo (fieldIdx fields "author") (fieldIdx fields "committer-time")
    (fieldIdx fields "boundary") (fieldIdx fields "commit")
    (mkEmptyRow fields) blameOutput (mkEmptyRow fields)

/-- The scan of `bucket` from index 1 upward over adjacent pairs. -/
def bucketAux (v : Int) : List Int → Int
  | b0 :: b1 :: rest => if b0 < v ∧ v < b1 then b0 else bucketAux v (b1 :: rest)
  | _ => -1

/-- `bucket(n, buckets)` of `src/index.ts`: the first `buckets[i-1]` with
`buckets[i-1] < n < buckets[i]`, else `-1`. -/
def bucket (v : Int) (buckets : List Int) : Int := bucketAux v buckets

/-- Modelled from the spec wording of the bucketing policy: `v` maps to
the left end of the first adjacent boundary pair it falls strictly
between, and to the sentinel `-1` otherwise. -/
def bucketSpec (v : Int) (bs : List Int) : Int :=
  match (bs.zip bs.tail).find? (fun p => decide (p.1 < v) && decide (v < p.2)) with
  | some p => p.1
  | none => -1


/-- The eight-file input of the reference test `cluster files / multiple files`. -/
def demoEightFiles : List String :=
  ["src/main/java/Foo.java", "src/main/java/Bar.java", "src/main/java/Baz.java",
   "src/main/resources/config.properties", "src/test/java/FooTest.java",
   "src/test/java/BarTest.java", "src/test/java/BazTest.java", ".gitignore"]

/-- A five-file input whose clustering output is not sorted by path. -/
def fiveFlatFiles : List String := ["b/x", "b/y", "a/x", "a/y", "a/z"]

/-- C1: on the eight-file test input with bounds (5, 1), `clusterFiles`
returns exactly the three clusters of the claim, in order: `src/main`
with the first four input paths and weight 4, the leftover `src` cluster
with the three test files and weight 3, and the leftover root cluster
with `.gitignore` and weight 1. -/
theorem clusterFiles_eight_file_example :
    clusterFiles demoEightFiles 5 1 =
      [⟨"src/main",
        ["src/main/java/Foo.java", "src/main/java/Bar.java", "src/main/java/Baz.java",
         "src/main/resources/config.properties"], 4, false⟩,
       ⟨"src",
        ["src/test/java/FooTest.java", "src/test/java/BarTest.java",
         "src/test/java/BazTest.java"], 3, true⟩,
       ⟨"", [".gitignore"], 1, true⟩] := by
  decide

/-- C4 counterexample: on the eight-file test input with
`clusterMinSize = 1`, the output flags are not the predicate
`weight > clusterMinSize`: the `src/main` cluster has weight `4 > 1` yet
`isLeftovers = false`, and the root cluster has weight `1` (not `> 1`)
yet `isLeftovers = true`. -/
theorem leftovers_flag_not_size_predicate :
    ¬ (∀ cl ∈ clusterFiles demoEightFiles 5 1, cl.isLeftovers = true ↔ 1 < cl.weight) := by
  decide

/-- C5 counterexample: `clusterFiles` on the empty list (with
`clusterMaxSize = 10`, `clusterMinSize = 1`) does not return the empty
sequence; it returns one cluster with an empty file list, exactly as the
`empty list` reference test expects. -/
theorem clusterFiles_empty_not_nil :
    clusterFiles [] 10 1 = [⟨"", [], 0, false⟩] ∧ clusterFiles [] 10 1 ≠ [] := by
  decide

/-- Lexicographic order on strings as character lists (shorter string
first on a tie of the common part). -/
def charLexLe : List Char → List Char → Bool
  | [], _ => true
  | _ :: _, [] => false
  | a :: as, b :: bs => if a = b then charLexLe as bs else decide (a < b)

/-- C6 counterexample: on `fiveFlatFiles` with bounds (2, 1) the returned
paths are `["a", "a/x", ""]`, and `"a" < "a/x"` lexicographically, so the
sequence is not in descending lexicographic path order. -/
theorem clusterFiles_output_not_path_sorted :
    (clusterFiles fiveFlatFiles 2 1).map FileTreeCluster.path = ["a", "a/x", ""]
      ∧ charLexLe "a/x".data "a".data = false := by
  decide

/-- The boundary-marker header line of the C8 counterexample: a caret,
forty hex characters, then the three line numbers. -/
def caretHeaderLine : String := "^aaaaaaaaaaaaaaaaaaaaaaaaaaaaaaaaaaaaaaaa 1 1 1"

/-- C8 counterexample: a 40-hex hash preceded by the boundary marker is
not recognized as a hunk header (the first space sits at index 41, not
40), so with fields `["commit"]` no row value carries the stripped hash;
the emitted row keeps the untouched initial cell instead. -/
theorem caret_header_not_recognized :
    headerRecognized caretHeaderLine = false
      ∧ parsePorcelain [caretHeaderLine, "\tx"] ["commit"] = [[Cell.str "commit"]]
      ∧ parsePorcelain [caretHeaderLine, "\tx"] ["commit"]
          ≠ [[Cell.str "aaaaaaaaaaaaaaaaaaaaaaaaaaaaaaaaaaaaaaaa"]] := by
  decide


/-- A plain 40-hex hunk header line. -/
def hashHeaderA : String := "aaaaaaaaaaaaaaaaaaaaaaaaaaaaaaaaaaaaaaaa 1 1 1"

/-- A second plain 40-hex hunk header line. -/
def hashHeaderB : String := "bbbbbbbbbbbbbbbbbbbbbbbbbbbbbbbbbbbbbbbb 2 2 1"

theorem idxOfSpace_some_lt : ∀ (l : List Char) (i : Nat), idxOfSpace l = some i → i < l.length := by
  intro l
  induction l with
  | nil => intro i h; simp [idxOfSpace] at h
  | cons c rest ih =>
    intro i h
    by_cases hc : (c == ' ') = true
    · simp [idxOfSpace, hc] at h
      simp [← h]
    · simp [idxOfSpace, hc] at h
      obtain ⟨j, hj, hji⟩ := h
      have := ih j hj
      simp only [List.length_cons]
      omega

theorem mem_take40_of_take_eq {l pre : List Char} (hlen : pre.length ≤ 40)
    (h : l.take pre.length = pre) {c : Char} (hc : c ∈ pre) : c ∈ l.take 40 := by
  have h1 : (l.take 40).take pre.length = pre := by
    rw [List.take_take, Nat.min_eq_left hlen, h]
  exact List.take_subset _ _ (h1 ▸ hc)

theorem startsWith_false_of_hex40 {line : String}
    (hall : (line.data.take 40).all isHexDigitCI = true)
    (pre : String) (hlen : pre.data.length ≤ 40) {c : Char} (hc : c ∈ pre.data)
    (hhex : isHexDigitCI c = false) : startsWithL line pre = false := by
  unfold startsWithL
  cases heq : (line.data.take pre.data.length == pre.data) with
  | false => rfl
  | true =>
    exfalso
    have he : line.data.take pre.data.length = pre.data := eq_of_beq heq
    have hmem := mem_take40_of_take_eq hlen he hc
    have hx := (List.all_eq_true.mp hall) c hmem
    rw [hhex] at hx
    exact Bool.false_ne_true hx

theorem headerRecognized_parts {line : String} (h : headerRecognized line = true) :
    firstSpaceIdx line = some 40 ∧ (line.data.take 40).all isHexDigitCI = true := by
  unfold headerRecognized at h
  rw [Bool.and_eq_true] at h
  obtain ⟨h1, h2⟩ := h
  refine ⟨eq_of_beq h1, ?_⟩
  unfold hashRegexTest at h2
  have hd : (takeChars line 40).data = line.data.take 40 := rfl
  rw [Bool.or_eq_true, Bool.and_eq_true, Bool.and_eq_true, Bool.and_eq_true] at h2
  rcases h2 with ⟨_, hall⟩ | ⟨⟨hlen, _⟩, _⟩
  · rw [hd] at hall; exact hall
  · exfalso
    have hle : (takeChars line 40).data.length ≤ 40 := by
      rw [hd, List.length_take]; omega
    have h41 : (takeChars line 40).data.length = 41 := by
      have := eq_of_beq hlen; omega
    omega

theorem headerRecognized_intro {line : String} (h1 : firstSpaceIdx line = some 40)
    (h2 : (line.data.take 40).all isHexDigitCI = true) : headerRecognized line = true := by
  have hlt : 40 < line.data.length := idxOfSpace_some_lt _ _ h1
  have hd : (takeChars line 40).data = line.data.take 40 := rfl
  have hlen : (takeChars line 40).data.length = 40 := by
    rw [hd, List.length_take]; omega
  unfold headerRecognized hashRegexTest
  rw [Bool.and_eq_true, Bool.or_eq_true, Bool.and_eq_true]
  exact ⟨by simp [h1], Or.inl ⟨by simp [hlen], by rw [hd]; exact h2⟩⟩

/-- C8 (amended): a line is recognized as a hunk header exactly when its
first space sits at character index 40 and the 40 characters before it
are all hex digits; a line starting with the boundary marker `^` is
never recognized (its pre-space part is 41 characters long, and a
40-character prehash starting with `^` fails the hex test); consequently
the caret-stripping replace never changes the emitted commit hash. -/
theorem header_requires_exactly_forty_hex (line : String) :
    (headerRecognized line = true
      ↔ (firstSpaceIdx line = some 40 ∧ (line.data.take 40).all isHexDigitCI = true))
    ∧ (line.data.head? = some '^' → headerRecognized line = false)
    ∧ (headerRecognized line = true → stripCaret (takeChars line 40) = takeChars line 40) := by
  refine ⟨⟨fun h => headerRecognized_parts h, fun h => headerRecognized_intro h.1 h.2⟩, ?_, ?_⟩
  · intro hhead
    cases hb : headerRecognized line with
    | false => rfl
    | true =>
      exfalso
      obtain ⟨_, hall⟩ := headerRecognized_parts hb
      obtain ⟨tl, hdata⟩ : ∃ tl, line.data = '^' :: tl := by
        cases hld : line.data with
        | nil => rw [hld] at hhead; simp at hhead
        | cons a tl =>
          rw [hld] at hhead
          simp only [List.head?_cons, Option.some_inj] at hhead
          exact ⟨tl, by rw [hhead]⟩
      have hmem : '^' ∈ line.data.take 40 := by
        rw [hdata, show (40 : Nat) = 39 + 1 from rfl, List.take_succ_cons]
        exact List.mem_cons_self _ _
      have hx := (List.all_eq_true.mp hall) _ hmem
      exact absurd hx (by decide)
  · intro hb
    obtain ⟨_, hall⟩ := headerRecognized_parts hb
    unfold stripCaret
    cases hsw : startsWithL (takeChars line 40) "^" with
    | false => simp
    | true =>
      exfalso
      unfold startsWithL at hsw
      have he : (line.data.take 40).take ("^".data.length) = "^".data := eq_of_beq hsw
      have hmem : '^' ∈ line.data.take 40 :=
        List.take_subset _ _ (he ▸ (by decide : '^' ∈ "^".data))
      have hx := (List.all_eq_true.mp hall) _ hmem
      exact absurd hx (by decide)

theorem porcGo_length (uP tP bP cP : Option Nat) (emptyRow : List Cell) :
    ∀ (lines : List String) (st : List Cell),
      (porcGo uP tP bP cP emptyRow lines st).length
        = lines.countP (fun l => startsWithL l "\t") := by
  intro lines
  induction lines with
  | nil => intro st; rfl
  | cons line rest ih =>
    intro st
    cases h1 : startsWithL line "\t" with
    | true => simp [porcGo, h1, ih, List.countP_cons]
    | false =>
      simp only [porcGo, h1, Bool.false_eq_true, if_false]
      simp [apply_ite List.length, ih, List.countP_cons, h1]

theorem porcGo_all_tabs (uP tP bP cP : Option Nat) (emptyRow : List Cell) :
    ∀ (cls : List String) (st : List Cell),
      (∀ l ∈ cls, startsWithL l "\t" = true) →
      porcGo uP tP bP cP emptyRow cls st = cls.map (fun _ => st) := by
  intro cls
  induction cls with
  | nil => intro st _; rfl
  | cons line rest ih =>
    intro st hall
    have h1 : startsWithL line "\t" = true := hall line (List.mem_cons_self _ _)
    simp only [porcGo, h1, if_true, List.map_cons]
    rw [ih st (fun l hl => hall l (List.mem_cons_of_mem _ hl))]

/-- C7: every tab-prefixed content line of `parsePorcelain` emits exactly
one output row (so the row count equals the content-line count and
metadata lines emit nothing); a content line never resets the working
row, so a block of consecutive content lines yields that many identical
snapshots; in particular, with fields
`["commit", "author", "committer-time"]`, one header followed by one
metadata block and two content lines yields the same commit, author and
time triple twice. -/
theorem parsePorcelain_snapshot_per_content_line :
    (∀ (lines fields : List String),
        (parsePorcelain lines fields).length
          = lines.countP (fun l => startsWithL l "\t"))
    ∧ (∀ (uP tP bP cP : Option Nat) (emptyRow : List Cell) (cls : List String)
          (st : List Cell),
        (∀ l ∈ cls, startsWithL l "\t" = true) →
        porcGo uP tP bP cP emptyRow cls st = cls.map (fun _ => st))
    ∧ parsePorcelain [hashHeaderA, "author Alice", "committer-time 1700000000", "\tx", "\ty"]
          ["commit", "author", "committer-time"]
        = [[Cell.str "aaaaaaaaaaaaaaaaaaaaaaaaaaaaaaaaaaaaaaaa", Cell.str "Alice",
            Cell.num 1700000000],
           [Cell.str "aaaaaaaaaaaaaaaaaaaaaaaaaaaaaaaaaaaaaaaa", Cell.str "Alice",
            Cell.num 1700000000]] := by
  refine ⟨fun lines fields => porcGo_length _ _ _ _ _ lines _, porcGo_all_tabs, ?_⟩
  decide

theorem parsePorcelain_snapshot_witness :
    porcGo (some 1) (some 2) none (some 0)
        [Cell.str "commit", Cell.str "author", Cell.num 0] ["\ta", "\tb"]
        [Cell.str "h", Cell.str "A", Cell.num 7]
      = [[Cell.str "h", Cell.str "A", Cell.num 7], [Cell.str "h", Cell.str "A", Cell.num 7]] :=
  parsePorcelain_snapshot_per_content_line.2.1 (some 1) (some 2) none (some 0)
    [Cell.str "commit", Cell.str "author", Cell.num 0] ["\ta", "\tb"]
    [Cell.str "h", Cell.str "A", Cell.num 7] (by decide)

theorem fieldIdx_eq_none_of_not_mem :
    ∀ (fields : List String) (name : String), ¬ name ∈ fields → fieldIdx fields name = none := by
  intro fields name
  induction fields with
  | nil => intro _; rfl
  | cons f rest ih =>
    intro h
    have hf : (f == name) = false := by
      have : f ≠ name := fun he => h (he ▸ List.mem_cons_self _ _)
      simp [this]
    simp only [fieldIdx, hf, Bool.false_eq_true, if_false]
    rw [ih (fun hm => h (List.mem_cons_of_mem _ hm))]
    rfl

/-- C10: hunk-header detection runs only when the `"commit"` field is
requested: with a field list not containing `"commit"` the header
position is `none`, a recognized header line leaves the working row
untouched (its hex prefix also matches none of the metadata prefixes),
and so a hunk without its own metadata lines emits rows that carry the
previous hunk's author and committer-time instead of the defaults. -/
theorem parsePorcelain_no_commit_no_header_reset :
    (∀ (uP tP bP : Option Nat) (emptyRow st : List Cell) (line : String)
        (rest : List String),
        headerRecognized line = true →
        porcGo uP tP bP none emptyRow (line :: rest) st
          = porcGo uP tP bP none emptyRow rest st)
    ∧ (∀ fields : List String, ¬ "commit" ∈ fields → fieldIdx fields "commit" = none)
    ∧ parsePorcelain [hashHeaderA, "author Alice", "committer-time 100", "\ta",
          hashHeaderB, "\tb"] ["author", "committer-time"]
        = [[Cell.str "Alice", Cell.num 100], [Cell.str "Alice", Cell.num 100]]
    ∧ [[Cell.str "Alice", Cell.num 100], [Cell.str "Alice", Cell.num 100]]
        ≠ [[Cell.str "Alice", Cell.num 100], [Cell.str "author", Cell.num 0]] := by
  refine ⟨?_, fun fields h => fieldIdx_eq_none_of_not_mem fields _ h, by decide, by decide⟩
  intro uP tP bP emptyRow st line rest hline
  obtain ⟨_, hall⟩ := headerRecognized_parts hline
  have htab : startsWithL line "\t" = false :=
    startsWith_false_of_hex40 hall "\t" (by decide) (by decide : '\t' ∈ "\t".data) (by decide)
  have hauth : startsWithL line "author " = false :=
    startsWith_false_of_hex40 hall "author " (by decide) (by decide : 'u' ∈ "author ".data)
      (by decide)
  have htime : startsWithL line "committer-time " = false :=
    startsWith_false_of_hex40 hall "committer-time " (by decide)
      (by decide : 'o' ∈ "committer-time ".data) (by decide)
  have hbnd : startsWithL line "boundary" = false :=
    startsWith_false_of_hex40 hall "boundary" (by decide) (by decide : 'o' ∈ "boundary".data)
      (by decide)
  simp [porcGo, htab, hauth, htime, hbnd]

theorem parsePorcelain_no_commit_witness :
    porcGo (some 0) (some 1) none none [Cell.str "author", Cell.num 0]
        (hashHeaderB :: ["\tb"]) [Cell.str "Alice", Cell.num 100]
      = porcGo (some 0) (some 1) none none [Cell.str "author", Cell.num 0]
          ["\tb"] [Cell.str "Alice", Cell.num 100] :=
  parsePorcelain_no_commit_no_header_reset.1 (some 0) (some 1) none
    [Cell.str "author", Cell.num 0] [Cell.str "Alice", Cell.num 100] hashHeaderB ["\tb"]
    (by decide)


/-- C5 (amended): on empty input, `clusterFiles` returns a single cluster
with empty path, empty file list, weight 0 and `isLeftovers = false`
(not an empty sequence), for every pair of bounds. -/
theorem clusterFiles_empty_single_cluster (mx mn : Nat) (h1 : 1 ≤ mn) (h2 : mn ≤ mx) :
    clusterFiles [] mx mn = [⟨"", [], 0, false⟩] := by
  have hstep : clusterFilesRecursively ⟨[], [], false, false⟩ mx mn = none := by
    simp [clusterFilesRecursively, stepFuel, stepBody, Nat.zero_le]
  simp [clusterFiles, clusterLoopResult, initialClusterOf, statePhi, clusterPhi, loopN,
    passOnce, hstep, renderCluster, joinSlash, Nat.zero_le]

theorem clusterFiles_empty_single_cluster_witness :
    1 ≤ 1 ∧ (1 : Nat) ≤ 10 ∧ clusterFiles [] 10 1 = [⟨"", [], 0, false⟩] :=
  ⟨Nat.le_refl 1, by decide, clusterFiles_empty_single_cluster 10 1 (Nat.le_refl 1) (by decide)⟩

theorem chainLe_head_le :
    ∀ (l : List Int) (x : Int), List.Chain' (· ≤ ·) (x :: l) → ∀ y ∈ l, x ≤ y := by
  intro l
  induction l with
  | nil => intro x _ y hy; simp at hy
  | cons z zs ih =>
    intro x h y hy
    have hxz : x ≤ z := (List.chain'_cons.mp h).1
    have hz : List.Chain' (· ≤ ·) (z :: zs) := (List.chain'_cons.mp h).2
    rcases List.mem_cons.mp hy with rfl | hy2
    · exact hxz
    · exact le_trans hxz (ih z hz y hy2)

theorem bucketAux_all_le :
    ∀ (bs : List Int) (v : Int), (∀ x ∈ bs, v ≤ x) → bucketAux v bs = -1 := by
  intro bs
  induction bs with
  | nil => intro v _; rfl
  | cons b0 rest ih =>
    intro v h
    cases rest with
    | nil => rfl
    | cons b1 rest2 =>
      have hb0 : v ≤ b0 := h b0 (List.mem_cons_self _ _)
      simp only [bucketAux]
      rw [if_neg (fun hc => absurd hc.1 (not_lt.mpr hb0))]
      exact ih v (fun x hx => h x (List.mem_cons_of_mem _ hx))

theorem bucketAux_eq_spec : ∀ (bs : List Int) (v : Int), bucketAux v bs = bucketSpec v bs := by
  intro bs
  induction bs with
  | nil => intro v; rfl
  | cons b0 rest ih =>
    intro v
    cases rest with
    | nil => rfl
    | cons b1 rest2 =>
      simp only [bucketAux]
      by_cases h : b0 < v ∧ v < b1
      · rw [if_pos h]
        simp [bucketSpec, List.find?_cons, h.1, h.2]
      · rw [if_neg h]
        have hpred : (decide (b0 < v) && decide (v < b1)) = false := by
          by_cases hA : b0 < v
          · have hB : ¬ v < b1 := fun hb => h ⟨hA, hb⟩
            simp [hA, hB]
          · simp [hA]
        rw [ih v]
        simp only [bucketSpec, List.tail_cons, List.zip_cons_cons, List.find?_cons, hpred]

theorem bucketAux_mem_boundary :
    ∀ (bs : List Int), List.Chain' (· ≤ ·) bs → ∀ v ∈ bs, bucketAux v bs = -1 := by
  intro bs
  induction bs with
  | nil => intro _ v hv; simp at hv
  | cons b0 rest ih =>
    intro hch v hv
    cases rest with
    | nil => rfl
    | cons b1 rest2 =>
      have hb01 : b0 ≤ b1 := (List.chain'_cons.mp hch).1
      have hch2 : List.Chain' (· ≤ ·) (b1 :: rest2) := (List.chain'_cons.mp hch).2
      simp only [bucketAux]
      rcases List.mem_cons.mp hv with rfl | hv2
      · rw [if_neg (fun hc => absurd hc.1 (lt_irrefl v))]
        refine bucketAux_all_le (b1 :: rest2) v (fun x hx => ?_)
        rcases List.mem_cons.mp hx with rfl | hx2
        · exact hb01
        · exact le_trans hb01 (chainLe_head_le rest2 b1 hch2 x hx2)
      · have hb1v : b1 ≤ v := by
          rcases List.mem_cons.mp hv2 with rfl | hv3
          · exact le_refl v
          · exact chainLe_head_le rest2 b1 hch2 v hv3
        rw [if_neg (fun hc => absurd hc.2 (not_lt.mpr hb1v))]
        exact ih hch2 v hv2

/-- C9: for an ascending boundary list, `bucket` returns the left end of
the first adjacent boundary pair that contains `v` strictly (the
smallest such index), and the sentinel `-1` when no adjacent pair
contains `v` strictly; in particular every value equal to one of the
boundaries is unbucketed. -/
theorem bucket_open_interval_semantics (v : Int) (bs : List Int)
    (hasc : List.Chain' (· ≤ ·) bs) :
    bucket v bs = bucketSpec v bs ∧ (v ∈ bs → bucket v bs = -1) :=
  ⟨bucketAux_eq_spec bs v, fun hm => bucketAux_mem_boundary bs hasc v hm⟩

theorem bucket_open_interval_semantics_witness :
    List.Chain' (· ≤ ·) [(0 : Int), 30, 300]
      ∧ (bucket 30 [(0 : Int), 30, 300] = bucketSpec 30 [(0 : Int), 30, 300]
          ∧ ((30 : Int) ∈ [(0 : Int), 30, 300] → bucket 30 [(0 : Int), 30, 300] = -1)) := by
  have hch : List.Chain' (· ≤ ·) [(0 : Int), 30, 300] := by
    simp [List.chain'_cons]
  exact ⟨hch, bucket_open_interval_semantics 30 [0, 30, 300] hch⟩


theorem bool_eq_false {b : Bool} (h : ¬ b = true) : b = false := by
  cases b
  · rfl
  · exact absurd rfl h

theorem newOf_add_remOf_length (c : Cluster) :
    (newOf c).length + (remOf c).length = c.files.length := by
  have hp := List.filter_append_perm
    (fun f => f.arr.get? c.path.length == some (mfOf c)) c.files
  have := hp.length_eq
  rw [List.length_append] at this
  exact this

theorem newOf_remOf_perm (c : Cluster) : (newOf c ++ remOf c).Perm c.files :=
  List.filter_append_perm _ _

theorem newOf_length_lt (c : Cluster) (h : remOf c ≠ []) :
    (newOf c).length < c.files.length := by
  have h1 := newOf_add_remOf_length c
  have h2 : 0 < (remOf c).length := List.length_pos.mpr h
  omega

theorem stepBody_congr (r1 r2 : Cluster → Nat → Nat → Option (List Cluster)) (c : Cluster)
    (mx mn : Nat)
    (hag : remOf c ≠ [] → ∀ mx2 mn2, r1 (extractedOf c) mx2 mn2 = r2 (extractedOf c) mx2 mn2) :
    stepBody r1 c mx mn = stepBody r2 c mx mn := by
  unfold stepBody
  split_ifs with h1 h2 h3 h4 h5 <;> try rfl
  rw [hag h3 mx 1]

theorem stepFuel_step_up : ∀ (n : Nat) (c : Cluster) (mx mn : Nat),
    c.files.length < n → stepFuel n c mx mn = stepFuel (n + 1) c mx mn := by
  intro n
  induction n with
  | zero => intro c mx mn h; exact absurd h (Nat.not_lt_zero _)
  | succ k ih =>
    intro c mx mn h
    show stepBody (stepFuel k) c mx mn = stepBody (stepFuel (k + 1)) c mx mn
    apply stepBody_congr
    intro hrem mx2 mn2
    have hlt : (extractedOf c).files.length < k := by
      show (newOf c).length < k
      have := newOf_length_lt c hrem
      omega
    exact ih _ mx2 mn2 hlt

theorem stepFuel_eq_cfr : ∀ (n : Nat) (c : Cluster) (mx mn : Nat),
    c.files.length < n → stepFuel n c mx mn = clusterFilesRecursively c mx mn := by
  intro n
  induction n with
  | zero => intro c mx mn h; exact absurd h (Nat.not_lt_zero _)
  | succ k ih =>
    intro c mx mn h
    by_cases he : c.files.length = k
    · unfold clusterFilesRecursively
      rw [he]
    · have hlt : c.files.length < k := by omega
      rw [← stepFuel_step_up k c mx mn hlt]
      exact ih c mx mn hlt

theorem cfr_unfold (c : Cluster) (mx mn : Nat) :
    clusterFilesRecursively c mx mn = stepBody clusterFilesRecursively c mx mn := by
  show stepBody (stepFuel c.files.length) c mx mn = _
  apply stepBody_congr
  intro hrem mx2 mn2
  refine stepFuel_eq_cfr _ _ mx2 mn2 ?_
  show (newOf c).length < c.files.length
  exact newOf_length_lt c hrem

theorem step_shape {c : Cluster} {mx mn : Nat} {r : List Cluster}
    (h : clusterFilesRecursively c mx mn = some r) :
    mx < c.files.length ∧ c.isUnclusterable = false ∧
      ((r = [extractedOf c] ∧ remOf c = [])
        ∨ r = [setUncl c]
        ∨ (r = sortPairDesc [extractedOf c, leftoverOf c]
            ∧ mn ≤ (newOf c).length ∧ remOf c ≠ [])) := by
  rw [cfr_unfold] at h
  unfold stepBody at h
  split_ifs at h with h1 h2 h3 h4 h5
  · exact ⟨by omega, bool_eq_false h2, Or.inl ⟨(Option.some.inj h).symm, h3⟩⟩
  · exact ⟨by omega, bool_eq_false h2, Or.inr (Or.inl (Option.some.inj h).symm)⟩
  · rcases hsub : clusterFilesRecursively (extractedOf c) mx 1 with _ | sub
    · rw [hsub] at h
      exact ⟨by omega, bool_eq_false h2, Or.inr (Or.inl (Option.some.inj h).symm)⟩
    · rw [hsub] at h
      dsimp only at h
      split_ifs at h with hlen
      · exact ⟨by omega, bool_eq_false h2, Or.inr (Or.inl (Option.some.inj h).symm)⟩
      · exact ⟨by omega, bool_eq_false h2,
          Or.inr (Or.inr ⟨(Option.some.inj h).symm, le_of_not_lt h4, h3⟩)⟩
  · exact ⟨by omega, bool_eq_false h2,
      Or.inr (Or.inr ⟨(Option.some.inj h).symm, le_of_not_lt h4, h3⟩)⟩


/-- Concatenation of the file lists of a sequence of working clusters. -/
def filesOf (cs : List Cluster) : List FileInfo :=
  cs.foldr (fun c acc => c.files ++ acc) []

/-- Concatenation of the file lists of a sequence of output clusters. -/
def strFilesOf (cs : List FileTreeCluster) : List String :=
  cs.foldr (fun c acc => c.files ++ acc) []

theorem filesOf_cons (c : Cluster) (cs : List Cluster) :
    filesOf (c :: cs) = c.files ++ filesOf cs := rfl

theorem filesOf_append : ∀ l1 l2 : List Cluster, filesOf (l1 ++ l2) = filesOf l1 ++ filesOf l2 := by
  intro l1 l2
  induction l1 with
  | nil => rfl
  | cons c cs ih =>
    show c.files ++ filesOf (cs ++ l2) = (c.files ++ filesOf cs) ++ filesOf l2
    rw [ih, List.append_assoc]

theorem sortPair_filesOf (a b : Cluster) :
    (filesOf (sortPairDesc [a, b])).Perm (a.files ++ b.files) := by
  dsimp only [sortPairDesc]
  split_ifs
  · show (b.files ++ (a.files ++ [])).Perm (a.files ++ b.files)
    rw [List.append_nil]
    exact List.perm_append_comm
  · show (a.files ++ (b.files ++ [])).Perm (a.files ++ b.files)
    rw [List.append_nil]

theorem step_files_perm {c : Cluster} {mx mn : Nat} {r : List Cluster}
    (h : clusterFilesRecursively c mx mn = some r) : (filesOf r).Perm c.files := by
  obtain ⟨_, _, hsh⟩ := step_shape h
  rcases hsh with ⟨hr, hrem⟩ | hr | ⟨hr, _, _⟩
  · subst hr
    show ((newOf c) ++ []).Perm c.files
    have hp := newOf_remOf_perm c
    rw [hrem] at hp
    exact hp
  · subst hr
    show (c.files ++ []).Perm c.files
    rw [List.append_nil]
  · subst hr
    exact (sortPair_filesOf _ _).trans (newOf_remOf_perm c)

theorem passOnce_files_perm (mx mn : Nat) : ∀ cs : List Cluster,
    (filesOf (passOnce mx mn cs).1).Perm (filesOf cs) := by
  intro cs
  induction cs with
  | nil => exact List.Perm.refl _
  | cons c cs ih =>
    rcases hc : clusterFilesRecursively c mx mn with _ | r
    · have he : (passOnce mx mn (c :: cs)).1 = c :: (passOnce mx mn cs).1 := by
        simp [passOnce, hc]
      rw [he, filesOf_cons, filesOf_cons]
      exact List.Perm.append_left c.files ih
    · have he : (passOnce mx mn (c :: cs)).1 = r ++ (passOnce mx mn cs).1 := by
        simp [passOnce, hc]
      rw [he, filesOf_append, filesOf_cons]
      exact (step_files_perm hc).append ih

theorem loopN_files_perm (mx mn : Nat) : ∀ (fuel : Nat) (cs : List Cluster),
    (filesOf (loopN mx mn fuel cs)).Perm (filesOf cs) := by
  intro fuel
  induction fuel with
  | zero => intro cs; exact List.Perm.refl _
  | succ k ih =>
    intro cs
    show (filesOf (if (passOnce mx mn cs).2 then loopN mx mn k (passOnce mx mn cs).1
        else (passOnce mx mn cs).1)).Perm (filesOf cs)
    split_ifs
    · exact (ih _).trans (passOnce_files_perm mx mn cs)
    · exact passOnce_files_perm mx mn cs

theorem strFilesOf_map_render : ∀ gs : List Cluster,
    strFilesOf (gs.map renderCluster) = (filesOf gs).map (fun f => f.str) := by
  intro gs
  induction gs with
  | nil => rfl
  | cons c cs ih =>
    show (renderCluster c).files ++ strFilesOf (cs.map renderCluster)
        = (c.files ++ filesOf cs).map (fun f => f.str)
    rw [List.map_append, ih]
    rfl

/-- C2: for every input list and bounds with
`clusterMaxSize ≥ clusterMinSize ≥ 1`, the concatenation of the `files`
lists of all clusters returned by `clusterFiles` is a permutation of the
input list: every input path lands in exactly one cluster, none is
duplicated and none is dropped. -/
theorem clusterFiles_covers_exactly (files : List String) (mx mn : Nat)
    (h1 : 1 ≤ mn) (h2 : mn ≤ mx) :
    (strFilesOf (clusterFiles files mx mn)).Perm files := by
  unfold clusterFiles
  rw [strFilesOf_map_render]
  have hp := loopN_files_perm mx mn
    (statePhi mx [initialClusterOf files] + 1) [initialClusterOf files]
  have hinit : filesOf [initialClusterOf files] = files.map mkFileInfo := by
    show files.map mkFileInfo ++ [] = _
    rw [List.append_nil]
  have hmapped := hp.map (fun f => f.str)
  rw [hinit] at hmapped
  have heq : (files.map mkFileInfo).map (fun f => f.str) = files := by
    rw [List.map_map, show ((fun (f : FileInfo) => f.str) ∘ mkFileInfo) = id from rfl,
      List.map_id]
  have hperm2 : ((files.map mkFileInfo).map (fun f => f.str)).Perm files := by
    rw [heq]
  exact hmapped.trans hperm2

theorem clusterFiles_covers_exactly_witness :
    1 ≤ 1 ∧ (1 : Nat) ≤ 5 ∧ (strFilesOf (clusterFiles demoEightFiles 5 1)).Perm demoEightFiles :=
  ⟨Nat.le_refl 1, by decide,
    clusterFiles_covers_exactly demoEightFiles 5 1 (Nat.le_refl 1) (by decide)⟩


theorem getq_some_lt : ∀ (l : List String) (n : Nat) (a : String),
    l.get? n = some a → n < l.length := by
  intro l
  induction l with
  | nil => intro n a h; simp [List.get?] at h
  | cons x xs ih =>
    intro n a h
    cases n with
    | zero => simp
    | succ k =>
      have := ih k a h
      simp only [List.length_cons]
      omega

theorem matched_mem_lt (c : Cluster) (f : FileInfo) (hf : f ∈ newOf c) :
    c.path.length < f.arr.length := by
  have hp := (List.mem_filter.mp hf).2
  have he : f.arr.get? c.path.length = some (mfOf c) := eq_of_beq hp
  exact getq_some_lt _ _ _ he

theorem shift_sum : ∀ (L : List FileInfo) (l : Nat),
    (∀ f ∈ L, l < f.arr.length) →
    (L.map (depthTerm (l + 1))).sum + L.length = (L.map (depthTerm l)).sum := by
  intro L l
  induction L with
  | nil => intro _; rfl
  | cons f L ih =>
    intro h
    have hf := h f (List.mem_cons_self _ _)
    have hrest := ih (fun g hg => h g (List.mem_cons_of_mem _ hg))
    simp only [List.map_cons, List.sum_cons, List.length_cons]
    simp only [depthTerm] at hrest ⊢
    omega

theorem sum_split (c : Cluster) (l : Nat) :
    ((newOf c).map (depthTerm l)).sum + ((remOf c).map (depthTerm l)).sum
      = (c.files.map (depthTerm l)).sum := by
  have hp := (newOf_remOf_perm c).map (depthTerm l)
  have hs := hp.sum_eq
  rw [List.map_append, List.sum_append] at hs
  exact hs

theorem clusterPhi_active (c : Cluster) (mx : Nat) (hgt : mx < c.files.length)
    (hu : c.isUnclusterable = false) :
    clusterPhi mx c = 1 + 2 * ((c.files.map (depthTerm c.path.length)).sum) := by
  unfold clusterPhi
  rw [if_neg (by omega), hu]
  simp

theorem clusterPhi_setUncl (c : Cluster) (mx : Nat) : clusterPhi mx (setUncl c) = 0 := by
  unfold clusterPhi setUncl
  simp

theorem clusterPhi_le_bound (d : Cluster) (mx : Nat) :
    clusterPhi mx d ≤ 1 + 2 * ((d.files.map (depthTerm d.path.length)).sum) := by
  unfold clusterPhi
  split_ifs <;> omega

theorem extractedOf_path_length (c : Cluster) :
    (extractedOf c).path.length = c.path.length + 1 := by
  show (c.path ++ [mfOf c]).length = _
  rw [List.length_append]
  rfl

theorem sortPair_phi_sum (a b : Cluster) (g : Cluster → Nat) :
    ((sortPairDesc [a, b]).map g).sum = g a + g b := by
  dsimp only [sortPairDesc]
  split_ifs <;> simp [Nat.add_comm]

theorem step_phi_decrease {c : Cluster} {mx mn : Nat} {r : List Cluster}
    (hmn : 1 ≤ mn) (h : clusterFilesRecursively c mx mn = some r) :
    (r.map (clusterPhi mx)).sum < clusterPhi mx c := by
  obtain ⟨hgt, hu, hsh⟩ := step_shape h
  have hphic := clusterPhi_active c mx hgt hu
  rcases hsh with ⟨hr, hrem⟩ | hr | ⟨hr, hmle, hremne⟩
  · subst hr
    simp only [List.map_cons, List.map_nil, List.sum_cons, List.sum_nil, Nat.add_zero]
    rw [hphic]
    have hlen : (newOf c).length = c.files.length := by
      have hx := newOf_add_remOf_length c
      rw [hrem] at hx
      simpa using hx
    have hb : clusterPhi mx (extractedOf c)
        ≤ 1 + 2 * (((newOf c).map (depthTerm (c.path.length + 1))).sum) := by
      have hx := clusterPhi_le_bound (extractedOf c) mx
      rw [extractedOf_path_length] at hx
      exact hx
    have hshift := shift_sum (newOf c) c.path.length (fun f hf => matched_mem_lt c f hf)
    have hsplit := sum_split c c.path.length
    rw [hrem] at hsplit
    simp only [List.map_nil, List.sum_nil, Nat.add_zero] at hsplit
    omega
  · subst hr
    simp only [List.map_cons, List.map_nil, List.sum_cons, List.sum_nil, Nat.add_zero]
    rw [clusterPhi_setUncl, hphic]
    omega
  · subst hr
    rw [sortPair_phi_sum, hphic]
    have hbE : clusterPhi mx (extractedOf c)
        ≤ 1 + 2 * (((newOf c).map (depthTerm (c.path.length + 1))).sum) := by
      have hx := clusterPhi_le_bound (extractedOf c) mx
      rw [extractedOf_path_length] at hx
      exact hx
    have hbL : clusterPhi mx (leftoverOf c)
        ≤ 1 + 2 * (((remOf c).map (depthTerm c.path.length)).sum) :=
      clusterPhi_le_bound (leftoverOf c) mx
    have hshift := shift_sum (newOf c) c.path.length (fun f hf => matched_mem_lt c f hf)
    have hsplit := sum_split c c.path.length
    have ha : 1 ≤ (newOf c).length := le_trans hmn hmle
    omega

theorem statePhi_cons (mx : Nat) (c : Cluster) (cs : List Cluster) :
    statePhi mx (c :: cs) = clusterPhi mx c + statePhi mx cs := by
  simp [statePhi]

theorem statePhi_append (mx : Nat) (l1 l2 : List Cluster) :
    statePhi mx (l1 ++ l2) = statePhi mx l1 + statePhi mx l2 := by
  unfold statePhi
  rw [List.map_append, List.sum_append]

theorem passOnce_phi_le (mx mn : Nat) (hmn : 1 ≤ mn) : ∀ cs : List Cluster,
    statePhi mx (passOnce mx mn cs).1 ≤ statePhi mx cs := by
  intro cs
  induction cs with
  | nil => exact Nat.le_refl _
  | cons c cs ih =>
    rcases hc : clusterFilesRecursively c mx mn with _ | r
    · have he : (passOnce mx mn (c :: cs)).1 = c :: (passOnce mx mn cs).1 := by
        simp [passOnce, hc]
      rw [he, statePhi_cons, statePhi_cons]
      omega
    · have he : (passOnce mx mn (c :: cs)).1 = r ++ (passOnce mx mn cs).1 := by
        simp [passOnce, hc]
      rw [he, statePhi_append, statePhi_cons]
      have hd := step_phi_decrease hmn hc
      have hsr : statePhi mx r = (r.map (clusterPhi mx)).sum := rfl
      omega

theorem passOnce_phi_lt {mx mn : Nat} (hmn : 1 ≤ mn) : ∀ cs : List Cluster,
    (passOnce mx mn cs).2 = true → statePhi mx (passOnce mx mn cs).1 < statePhi mx cs := by
  intro cs
  induction cs with
  | nil => intro h; simp [passOnce] at h
  | cons c cs ih =>
    intro h
    rcases hc : clusterFilesRecursively c mx mn with _ | r
    · have he1 : (passOnce mx mn (c :: cs)).1 = c :: (passOnce mx mn cs).1 := by
        simp [passOnce, hc]
      have he2 : (passOnce mx mn (c :: cs)).2 = (passOnce mx mn cs).2 := by
        simp [passOnce, hc]
      rw [he2] at h
      rw [he1, statePhi_cons, statePhi_cons]
      have := ih h
      omega
    · have he : (passOnce mx mn (c :: cs)).1 = r ++ (passOnce mx mn cs).1 := by
        simp [passOnce, hc]
      rw [he, statePhi_append, statePhi_cons]
      have hd := step_phi_decrease hmn hc
      have hsr : statePhi mx r = (r.map (clusterPhi mx)).sum := rfl
      have hle := passOnce_phi_le mx mn hmn cs
      omega

theorem passOnce_false_all (mx mn : Nat) : ∀ cs : List Cluster,
    (passOnce mx mn cs).2 = false → ∀ c ∈ cs, clusterFilesRecursively c mx mn = none := by
  intro cs
  induction cs with
  | nil => intro _ c hc; simp at hc
  | cons c cs ih =>
    intro h d hd
    rcases hc : clusterFilesRecursively c mx mn with _ | r
    · have he2 : (passOnce mx mn (c :: cs)).2 = (passOnce mx mn cs).2 := by
        simp [passOnce, hc]
      rw [he2] at h
      rcases List.mem_cons.mp hd with rfl | hd2
      · exact hc
      · exact ih h d hd2
    · have he2 : (passOnce mx mn (c :: cs)).2 = true := by
        simp [passOnce, hc]
      rw [he2] at h
      exact absurd h (by simp)

theorem passOnce_id_of_false (mx mn : Nat) : ∀ cs : List Cluster,
    (passOnce mx mn cs).2 = false → (passOnce mx mn cs).1 = cs := by
  intro cs
  induction cs with
  | nil => intro _; rfl
  | cons c cs ih =>
    intro h
    rcases hc : clusterFilesRecursively c mx mn with _ | r
    · have he1 : (passOnce mx mn (c :: cs)).1 = c :: (passOnce mx mn cs).1 := by
        simp [passOnce, hc]
      have he2 : (passOnce mx mn (c :: cs)).2 = (passOnce mx mn cs).2 := by
        simp [passOnce, hc]
      rw [he2] at h
      rw [he1, ih h]
    · have he2 : (passOnce mx mn (c :: cs)).2 = true := by
        simp [passOnce, hc]
      rw [he2] at h
      exact absurd h (by simp)

theorem loopN_stable {mx mn : Nat} (hmn : 1 ≤ mn) : ∀ (fuel : Nat) (cs : List Cluster),
    statePhi mx cs < fuel →
    ∀ c ∈ loopN mx mn fuel cs, clusterFilesRecursively c mx mn = none := by
  intro fuel
  induction fuel with
  | zero => intro cs h; omega
  | succ k ih =>
    intro cs h c hc
    by_cases hp : (passOnce mx mn cs).2 = true
    · have he : loopN mx mn (k + 1) cs = loopN mx mn k (passOnce mx mn cs).1 := by
        simp [loopN, hp]
      rw [he] at hc
      have hlt := passOnce_phi_lt hmn cs hp
      exact ih _ (by omega) c hc
    · have hp2 : (passOnce mx mn cs).2 = false := bool_eq_false hp
      have he : loopN mx mn (k + 1) cs = (passOnce mx mn cs).1 := by
        simp [loopN, hp2]
      rw [he, passOnce_id_of_false mx mn cs hp2] at hc
      exact passOnce_false_all mx mn cs hp2 c hc

theorem splitSlashChars_no_slash : ∀ l : List Char, ¬ '/' ∈ l → splitSlashChars l = [l] := by
  intro l
  induction l with
  | nil => intro _; rfl
  | cons c rest ih =>
    intro h
    have hc : ¬ c = '/' := fun he => h (he ▸ List.mem_cons_self _ _)
    have hrest : splitSlashChars rest = [rest] := ih (fun hm => h (List.mem_cons_of_mem _ hm))
    simp [splitSlashChars, hrest, hc]

/-- C3: `clusterFiles` is total over any list of path strings for bounds
with `clusterMaxSize ≥ clusterMinSize ≥ 1`: the `while (changes)` loop
reaches its fixed point (every remaining cluster group is returned
unchanged by `clusterFilesRecursively`), the returned value is the
rendering of that fixed point, and a path without a `/` is kept whole as
a single root-level segment. -/
theorem clusterFiles_total_terminates (files : List String) (mx mn : Nat)
    (h1 : 1 ≤ mn) (h2 : mn ≤ mx) :
    (∀ c ∈ clusterLoopResult files mx mn, clusterFilesRecursively c mx mn = none)
    ∧ clusterFiles files mx mn = (clusterLoopResult files mx mn).map renderCluster
    ∧ (∀ s : String, ¬ '/' ∈ s.data → jsSplitSlash s = [s]) := by
  refine ⟨?_, rfl, ?_⟩
  · exact loopN_stable h1 (statePhi mx [initialClusterOf files] + 1)
      [initialClusterOf files] (by omega)
  · intro s hs
    unfold jsSplitSlash
    rw [splitSlashChars_no_slash s.data hs]
    show [String.mk s.data] = [s]
    have hmk : String.mk s.data = s := by cases s; rfl
    rw [hmk]

theorem clusterFiles_total_terminates_witness :
    1 ≤ 1 ∧ (1 : Nat) ≤ 5
      ∧ ((∀ c ∈ clusterLoopResult demoEightFiles 5 1, clusterFilesRecursively c 5 1 = none)
          ∧ clusterFiles demoEightFiles 5 1 = (clusterLoopResult demoEightFiles 5 1).map renderCluster
          ∧ (∀ s : String, ¬ '/' ∈ s.data → jsSplitSlash s = [s])) :=
  ⟨Nat.le_refl 1, by decide,
    clusterFiles_total_terminates demoEightFiles 5 1 (Nat.le_refl 1) (by decide)⟩


/-- C4 (amended): the `isLeftovers` flag marks the remainder component of
a split, not a size comparison with `clusterMinSize`: whenever a cluster
whose own flag is `false` is rewritten by `clusterFilesRecursively`, a
result cluster carries `isLeftovers = true` exactly when the result is a
two-cluster split and that cluster is the one kept at the original path
(the extracted most-frequent-segment cluster and all single-cluster
results carry `false`). -/
theorem leftovers_marks_split_remainder (c : Cluster) (mx mn : Nat) (r : List Cluster)
    (hL : c.isLeftovers = false) (h : clusterFilesRecursively c mx mn = some r) :
    ∀ x ∈ r, (x.isLeftovers = true ↔ (x.path = c.path ∧ r.length = 2)) := by
  have hpne : c.path ≠ c.path ++ [mfOf c] := by
    intro he
    have hlen := congrArg List.length he
    rw [List.length_append] at hlen
    simp at hlen
  obtain ⟨_, _, hsh⟩ := step_shape h
  rcases hsh with ⟨hr, _⟩ | hr | ⟨hr, _, _⟩
  · subst hr
    intro x hx
    rw [List.mem_singleton] at hx
    subst hx
    constructor
    · intro hf; exact absurd hf (by simp [extractedOf])
    · intro hand; exact absurd hand.2 (by simp)
  · subst hr
    intro x hx
    rw [List.mem_singleton] at hx
    subst hx
    constructor
    · intro hf
      have : c.isLeftovers = true := hf
      rw [hL] at this
      exact absurd this (by simp)
    · intro hand; exact absurd hand.2 (by simp)
  · subst hr
    intro x hx
    have hmem : x = extractedOf c ∨ x = leftoverOf c := by
      dsimp only [sortPairDesc] at hx
      split_ifs at hx
      · rcases List.mem_cons.mp hx with h1 | h2
        · exact Or.inr h1
        · rw [List.mem_singleton] at h2; exact Or.inl h2
      · rcases List.mem_cons.mp hx with h1 | h2
        · exact Or.inl h1
        · rw [List.mem_singleton] at h2; exact Or.inr h2
    have hlen2 : (sortPairDesc [extractedOf c, leftoverOf c]).length = 2 := by
      dsimp only [sortPairDesc]; split_ifs <;> rfl
    rcases hmem with rfl | rfl
    · constructor
      · intro hf; exact absurd hf (by simp [extractedOf])
      · intro hand
        exact absurd (show c.path = c.path ++ [mfOf c] from hand.1.symm) hpne
    · constructor
      · intro _; exact ⟨rfl, hlen2⟩
      · intro _; rfl

/-- A root cluster of three flat two-segment files that splits once. -/
def splitDemoCluster : Cluster :=
  ⟨[], [⟨["a", "x"], "a/x"⟩, ⟨["a", "y"], "a/y"⟩, ⟨["b", "x"], "b/x"⟩], false, false⟩

/-- The split of `splitDemoCluster` at bounds (2, 1). -/
def splitDemoResult : List Cluster :=
  [⟨["a"], [⟨["a", "x"], "a/x"⟩, ⟨["a", "y"], "a/y"⟩], false, false⟩,
   ⟨[], [⟨["b", "x"], "b/x"⟩], true, false⟩]

theorem leftovers_marks_split_remainder_witness :
    splitDemoCluster.isLeftovers = false
      ∧ clusterFilesRecursively splitDemoCluster 2 1 = some splitDemoResult
      ∧ (∀ x ∈ splitDemoResult,
          (x.isLeftovers = true
            ↔ (x.path = splitDemoCluster.path ∧ splitDemoResult.length = 2))) :=
  ⟨rfl, by decide,
    leftovers_marks_split_remainder splitDemoCluster 2 1 splitDemoResult rfl (by decide)⟩

/-- C6 (amended): no global sort by path is applied to the output of
`clusterFiles`; the only ordering the algorithm enforces is local: each
two-cluster split emitted by `clusterFilesRecursively` is sorted by
descending file count (the larger cluster first), so the final sequence
need not be in descending lexicographic path order. -/
theorem split_pair_sorted_by_weight (c : Cluster) (mx mn : Nat) (r : List Cluster)
    (h : clusterFilesRecursively c mx mn = some r) :
    ∀ a b : Cluster, r = [a, b] → b.files.length ≤ a.files.length := by
  obtain ⟨_, _, hsh⟩ := step_shape h
  intro a b hab
  rcases hsh with ⟨hr, _⟩ | hr | ⟨hr, _, _⟩
  · rw [hr] at hab; simp at hab
  · rw [hr] at hab; simp at hab
  · rw [hr] at hab
    dsimp only [sortPairDesc] at hab
    split_ifs at hab with hlt
    · simp only [List.cons.injEq, and_true] at hab
      obtain ⟨h1, h2⟩ := hab
      rw [← h1, ← h2]
      exact le_of_lt hlt
    · simp only [List.cons.injEq, and_true] at hab
      obtain ⟨h1, h2⟩ := hab
      rw [← h1, ← h2]
      exact le_of_not_lt hlt

/-- A root cluster of three flat files whose most frequent first segment
is `b`. -/
def sortDemoCluster : Cluster :=
  ⟨[], [⟨["a", "x"], "a/x"⟩, ⟨["b", "x"], "b/x"⟩, ⟨["b", "y"], "b/y"⟩], false, false⟩

/-- The split of `sortDemoCluster` at bounds (2, 1). -/
def sortDemoResult : List Cluster :=
  [⟨["b"], [⟨["b", "x"], "b/x"⟩, ⟨["b", "y"], "b/y"⟩], false, false⟩,
   ⟨[], [⟨["a", "x"], "a/x"⟩], true, false⟩]

theorem split_pair_sorted_by_weight_witness :
    clusterFilesRecursively sortDemoCluster 2 1 = some sortDemoResult
      ∧ (⟨[], [⟨["a", "x"], "a/x"⟩], true, false⟩ : Cluster).files.length
          ≤ (⟨["b"], [⟨["b", "x"], "b/x"⟩, ⟨["b", "y"], "b/y"⟩], false, false⟩
              : Cluster).files.length :=
  ⟨by decide,
    split_pair_sorted_by_weight sortDemoCluster 2 1 sortDemoResult (by decide)
      ⟨["b"], [⟨["b", "x"], "b/x"⟩, ⟨["b", "y"], "b/y"⟩], false, false⟩
      ⟨[], [⟨["a", "x"], "a/x"⟩], true, false⟩ rfl⟩


theorem header_requires_exactly_forty_hex_witness :
    headerRecognized hashHeaderA = true
      ∧ stripCaret (takeChars hashHeaderA 40) = takeChars hashHeaderA 40 :=
  ⟨by decide, (header_requires_exactly_forty_hex hashHeaderA).2.2 (by decide)⟩

end GitStats
